import Mathlib

/-!
Shallow embedding of the two core algorithms of the ContentAutomation
repository: the caption phrase segmenter (`caption_generator.py`,
`group_words_into_phrases`) and the video sequence builder (`main.py`,
`resize_clip_vertical`, `process_video_clip`, `create_video_sequence`).

Durations and timestamps are modelled as rationals; Python list indexing
with `[-1]`, which raises `IndexError` on an empty list, is modelled with
`Except`, as is every code path that can raise.
-/

/-! ## Caption generator: data model (`caption_generator.py`) -/

/-- Python's `str.strip()`: drop leading and trailing whitespace.  Written
as structural recursion over the character list so that it evaluates. -/
def pyStrip (s : String) : String :=
  ⟨((s.data.dropWhile Char.isWhitespace).reverse.dropWhile Char.isWhitespace).reverse⟩

/-- One recognized spoken token, as produced by the transcription step.
The source dictionary keys are `"text"`, `"start"`, `"end"`; the key
`"end"` is rendered here as `stop` (a Lean keyword clash). -/
structure Word where
  text : String
  start : ℚ
  stop : ℚ
deriving DecidableEq, Inhabited

/-- A renderable caption unit (`CaptionPhrase` dataclass in the source). -/
structure CaptionPhrase where
  text : String
  start_time : ℚ
  end_time : ℚ
deriving DecidableEq, Inhabited

/-- The phrase the source builds from one accumulated run of words:
`" ".join(w["text"].strip() for w in current_words)`, the first word's
start and the last word's end. -/
def phraseOfRun : List Word → CaptionPhrase
  | [] => { text := "", start_time := 0, end_time := 0 }
  | w :: ws =>
    { text := String.intercalate " " ((w :: ws).map (fun x => pyStrip x.text)),
      start_time := w.start,
      end_time := (ws.getLastD w).stop }

/-- Flushing the accumulator: the source emits a phrase only when
`current_words` is non-empty. -/
def closePhrase : List Word → List CaptionPhrase
  | [] => []
  | w :: ws => [phraseOfRun (w :: ws)]

/-- Python `current_words[-1]`: raises `IndexError` on an empty list. -/
def pyLast : List Word → Except String Word := fun l =>
  match l.getLast? with
  | none => Except.error "IndexError: list index out of range"
  | some w => Except.ok w

/-- The phrase-break condition of `group_words_into_phrases`, with Python's
short-circuiting `or` rendered as nested conditionals in the same order:
empty accumulator, word-count target reached, pause gap over 0.7s, phrase
span over 4.0s. -/
def newPhraseCond (current_words : List Word) (current_start : ℚ)
    (target_words_per_phrase : ℕ) (w : Word) : Except String Bool :=
  if current_words.isEmpty then Except.ok true
  else if target_words_per_phrase ≤ current_words.length then Except.ok true
  else
    match pyLast current_words with
    | Except.error e => Except.error e
    | Except.ok lastW =>
      if w.start - lastW.stop > 7/10 then Except.ok true
      else if w.stop - current_start > 4 then Except.ok true
      else Except.ok false

/-- The word loop of `group_words_into_phrases`: when the break condition
fires, flush the accumulator (emitting a phrase if it is non-empty) and
restart it with the incoming word and its start time; otherwise append the
incoming word.  After the loop the remaining accumulator is flushed. -/
def segLoop (target_words_per_phrase : ℕ) :
    List Word → List Word → ℚ → Except String (List CaptionPhrase)
  | [], current_words, _ => Except.ok (closePhrase current_words)
  | w :: ws, current_words, current_start =>
    match newPhraseCond current_words current_start target_words_per_phrase w with
    | Except.error e => Except.error e
    | Except.ok true =>
      match segLoop target_words_per_phrase ws [w] w.start with
      | Except.error e => Except.error e
      | Except.ok rest => Except.ok (closePhrase current_words ++ rest)
    | Except.ok false => segLoop target_words_per_phrase ws (current_words ++ [w]) current_start

/-- `group_words_into_phrases(words, target_words_per_phrase=5)` from
`caption_generator.py`: the accumulator starts empty with
`current_start = 0`. -/
def group_words_into_phrases (words : List Word)
    (target_words_per_phrase : ℕ := 5) : Except String (List CaptionPhrase) :=
  segLoop target_words_per_phrase words [] 0

/-- Two consecutive words of one phrase never straddle a pause longer
than 0.7s. -/
def gapOK (a b : Word) : Prop := b.start - a.stop ≤ 7/10

/-! ## Sequence builder: data model (`main.py`) -/

/-- TikTok recommended resolution (`main.py`). -/
def VERTICAL_WIDTH : ℤ := 1080

def VERTICAL_HEIGHT : ℤ := 1920

/-- A candidate source video: its probed native duration, and whether the
external media library can open it (`VideoFileClip` succeeding). -/
structure ClipDescriptor where
  id : ℕ
  duration : ℚ
  readable : Bool
deriving DecidableEq, Inhabited

/-- One clip placed into the output sequence: `subclip(trim_start, trim_end)`
of the source. -/
structure ClipPlanEntry where
  source : ClipDescriptor
  trim_start : ℚ
  trim_end : ℚ
deriving DecidableEq, Inhabited

/-- Effective duration contributed by one plan entry. -/
def entryDur (e : ClipPlanEntry) : ℚ := e.trim_end - e.trim_start

/-- Duration of a concatenation of plan entries. -/
def entriesDuration (es : List ClipPlanEntry) : ℚ := (es.map entryDur).sum

/-- The ordered output plan together with the duration of its
concatenation. -/
structure SequencePlan where
  entries : List ClipPlanEntry
  total_duration : ℚ
deriving DecidableEq, Inhabited

/-- `process_video_clip` from `main.py`: opening the source can fail (the
caller catches the exception); on success the clip is cut to
`subclip(0, min(5.0, clip.duration))`. -/
def process_video_clip (d : ClipDescriptor) : Except String ClipPlanEntry :=
  if d.readable then
    Except.ok { source := d, trim_start := 0, trim_end := min 5 d.duration }
  else
    Except.error "could not be read"

/-- The selection loop of `create_video_sequence`: process each path in
order, skip the ones that raise, accumulate durations, and break as soon
as the running total reaches the target. -/
def sequenceLoop (video_paths : List ClipDescriptor) (target_duration : ℚ)
    (processed_clips : List ClipPlanEntry) (total_duration : ℚ) :
    List ClipPlanEntry × ℚ :=
  match video_paths with
  | [] => (processed_clips, total_duration)
  | d :: ds =>
    match process_video_clip d with
    | Except.error _ => sequenceLoop ds target_duration processed_clips total_duration
    | Except.ok e =>
      if target_duration ≤ total_duration + entryDur e then
        (processed_clips ++ [e], total_duration + entryDur e)
      else
        sequenceLoop ds target_duration (processed_clips ++ [e]) (total_duration + entryDur e)

/-- `final_sequence.subclip(0, t)` at the plan level: walk the concatenated
entries and cut the one in which the cutoff `t` falls. -/
def truncateEntries : List ClipPlanEntry → ℚ → List ClipPlanEntry
  | [], _ => []
  | e :: es, t =>
    if t < entryDur e then [{ e with trim_end := e.trim_start + t }]
    else e :: truncateEntries es (t - entryDur e)

/-- `create_video_sequence(video_paths, target_duration)` from `main.py`:
raises `ValueError` when no clip at all could be processed, otherwise
concatenates the processed clips and cuts the concatenation back to
`target_duration` when it overshoots. -/
def create_video_sequence (video_paths : List ClipDescriptor)
    (target_duration : ℚ) : Except String SequencePlan :=
  let r := sequenceLoop video_paths target_duration [] 0
  if r.1.isEmpty then Except.error "No video clips could be processed."
  else
    let final := if target_duration < r.2 then truncateEntries r.1 target_duration else r.1
    Except.ok { entries := final, total_duration := entriesDuration final }

/-- Total duration a pool can contribute: the 5-second-capped durations of
its readable descriptors. -/
def cappedPoolDuration (pool : List ClipDescriptor) : ℚ :=
  ((pool.filter (fun d => d.readable)).map (fun d => min 5 d.duration)).sum

/-! ## Crop geometry (`resize_clip_vertical` in `main.py`) -/

/-- The rectangle handed to `clip.crop(x1=..., y1=..., x2=..., y2=...)`. -/
structure CropRect where
  x1 : ℤ
  y1 : ℤ
  x2 : ℤ
  y2 : ℤ
deriving DecidableEq, Inhabited

/-- The geometry computed by `resize_clip_vertical`: the uniformly scaled
frame size and the crop rectangle taken from it. -/
structure ResizeResult where
  new_width : ℤ
  new_height : ℤ
  crop : CropRect
deriving DecidableEq, Inhabited

/-- `resize_clip_vertical` from `main.py`, on a source frame of `w × h`
pixels: compare the source aspect to `1080/1920`; scale so the matching
axis fits, `int(...)` (truncation, here floor of a positive value) the
scaled other axis, and center-crop it with Python's floor division. -/
def resize_clip_vertical (w h : ℕ) : ResizeResult :=
  if (w : ℚ) / (h : ℚ) > (VERTICAL_WIDTH : ℚ) / (VERTICAL_HEIGHT : ℚ) then
    let new_height : ℤ := VERTICAL_HEIGHT
    let new_width : ℤ := ⌊(new_height : ℚ) * ((w : ℚ) / (h : ℚ))⌋
    let x_center : ℤ := new_width / 2
    let x1 : ℤ := x_center - VERTICAL_WIDTH / 2
    { new_width := new_width, new_height := new_height,
      crop := { x1 := x1, y1 := 0, x2 := x1 + VERTICAL_WIDTH, y2 := VERTICAL_HEIGHT } }
  else
    let new_width : ℤ := VERTICAL_WIDTH
    let new_height : ℤ := ⌊(new_width : ℚ) / ((w : ℚ) / (h : ℚ))⌋
    let y_center : ℤ := new_height / 2
    let y1 : ℤ := y_center - VERTICAL_HEIGHT / 2
    { new_width := new_width, new_height := new_height,
      crop := { x1 := 0, y1 := y1, x2 := VERTICAL_WIDTH, y2 := y1 + VERTICAL_HEIGHT } }

/-! ## Segmentation lemmas -/

lemma newPhraseCond_ok (cw : List Word) (cs : ℚ) (tgt : ℕ) (w : Word) :
    newPhraseCond cw cs tgt w = Except.ok true ∨
    (cw ≠ [] ∧ newPhraseCond cw cs tgt w = Except.ok false ∧
      ∀ lst, cw.getLast? = some lst → gapOK lst w) := by
  rcases cw with _ | ⟨c, cw'⟩
  · left; rfl
  · rcases h : (c :: cw').getLast? with _ | lst
    · simp at h
    · have hpy : pyLast (c :: cw') = Except.ok lst := by
        simp only [pyLast, h]
      have hie : ¬((c :: cw').isEmpty = true) := by simp
      by_cases h1 : tgt ≤ (c :: cw').length
      · left
        rw [newPhraseCond, if_neg hie, if_pos h1]
      · by_cases h2 : w.start - lst.stop > 7/10
        · left
          rw [newPhraseCond, if_neg hie, if_neg h1, hpy]
          show (if w.start - lst.stop > 7/10 then (Except.ok true : Except String Bool)
            else if w.stop - cs > 4 then Except.ok true else Except.ok false) = Except.ok true
          rw [if_pos h2]
        · by_cases h3 : w.stop - cs > 4
          · left
            rw [newPhraseCond, if_neg hie, if_neg h1, hpy]
            show (if w.start - lst.stop > 7/10 then (Except.ok true : Except String Bool)
              else if w.stop - cs > 4 then Except.ok true else Except.ok false) = Except.ok true
            rw [if_neg h2, if_pos h3]
          · right
            refine ⟨by simp, ?_, ?_⟩
            · rw [newPhraseCond, if_neg hie, if_neg h1, hpy]
              show (if w.start - lst.stop > 7/10 then (Except.ok true : Except String Bool)
                else if w.stop - cs > 4 then Except.ok true else Except.ok false)
                = Except.ok false
              rw [if_neg h2, if_neg h3]
            · intro l hl
              cases Option.some.inj hl
              simpa [gapOK] using not_lt.mp h2

lemma segLoop_cons_true_ok {tgt : ℕ} {w : Word} {ws cw : List Word} {cs : ℚ}
    {rest : List CaptionPhrase}
    (h : newPhraseCond cw cs tgt w = Except.ok true)
    (h2 : segLoop tgt ws [w] w.start = Except.ok rest) :
    segLoop tgt (w :: ws) cw cs = Except.ok (closePhrase cw ++ rest) := by
  simp only [segLoop, h, h2]

lemma segLoop_cons_false {tgt : ℕ} {w : Word} {ws cw : List Word} {cs : ℚ}
    (h : newPhraseCond cw cs tgt w = Except.ok false) :
    segLoop tgt (w :: ws) cw cs = segLoop tgt ws (cw ++ [w]) cs := by
  simp only [segLoop, h]

/-- Master invariant of the word loop: it never fails, and its output is
`phraseOfRun` mapped over a list of non-empty runs whose concatenation is
the accumulator followed by the remaining words; within each run,
consecutive words are separated by at most the 0.7s pause threshold. -/
lemma segLoop_spec (tgt : ℕ) :
    ∀ (ws cw : List Word) (cs : ℚ), List.Chain' gapOK cw →
    ∃ runs : List (List Word),
      segLoop tgt ws cw cs = Except.ok (runs.map phraseOfRun) ∧
      runs.flatten = cw ++ ws ∧
      (∀ r ∈ runs, r ≠ []) ∧
      (∀ r ∈ runs, List.Chain' gapOK r) := by
  intro ws
  induction ws with
  | nil =>
    intro cw cs hcw
    rcases cw with _ | ⟨c, cw'⟩
    · exact ⟨[], rfl, rfl, by simp, by simp⟩
    · refine ⟨[c :: cw'], rfl, by simp, ?_, ?_⟩
      · intro r hr
        rw [List.mem_singleton] at hr
        subst hr
        simp
      · intro r hr
        rw [List.mem_singleton] at hr
        subst hr
        exact hcw
  | cons w ws ih =>
    intro cw cs hcw
    rcases newPhraseCond_ok cw cs tgt w with h | ⟨hne, h, hgap⟩
    · obtain ⟨runs', heq, hjoin, hne', hch⟩ := ih [w] w.start (List.chain'_singleton w)
      rcases cw with _ | ⟨c, cw'⟩
      · exact ⟨runs', by simpa using segLoop_cons_true_ok h heq, by simpa using hjoin,
          hne', hch⟩
      · refine ⟨(c :: cw') :: runs', ?_, ?_, ?_, ?_⟩
        · rw [segLoop_cons_true_ok h heq]; rfl
        · simp [hjoin]
        · intro r hr
          rcases List.mem_cons.mp hr with rfl | hr'
          · simp
          · exact hne' r hr'
        · intro r hr
          rcases List.mem_cons.mp hr with rfl | hr'
          · exact hcw
          · exact hch r hr'
    · have hcw' : List.Chain' gapOK (cw ++ [w]) := by
        rw [List.chain'_append]
        refine ⟨hcw, List.chain'_singleton w, ?_⟩
        intro x hx y hy
        have hy' : w = y := by simpa using hy
        subst hy'
        exact hgap x (by simpa using hx)
      obtain ⟨runs, heq, hjoin, hne', hch⟩ := ih (cw ++ [w]) cs hcw'
      refine ⟨runs, by rw [segLoop_cons_false h]; exact heq, ?_, hne', hch⟩
      rw [hjoin]
      simp

/-- Restriction of a chain condition on a concatenation to each block. -/
lemma chain'_of_mem_join {R : Word → Word → Prop} :
    ∀ (runs : List (List Word)), List.Chain' R runs.flatten →
    ∀ r ∈ runs, List.Chain' R r := by
  intro runs
  induction runs with
  | nil =>
    intro _ r hr
    cases hr
  | cons a l ih =>
    intro h r hr
    rw [List.flatten_cons, List.chain'_append] at h
    rcases List.mem_cons.mp hr with rfl | hr'
    · exact h.1
    · exact ih h.2.1 r hr'

/-- In a chronologically ordered run, the first word starts no later than
the last word ends. -/
lemma run_start_le_stop :
    ∀ (ws : List Word) (w : Word),
      (∀ x ∈ w :: ws, x.start ≤ x.stop) →
      List.Chain' (fun a b => a.stop ≤ b.start) (w :: ws) →
      w.start ≤ (ws.getLastD w).stop := by
  intro ws
  induction ws with
  | nil =>
    intro w h _
    exact h w (List.mem_singleton_self w)
  | cons y ys ih =>
    intro w h hch
    rw [List.getLastD_cons]
    rcases List.chain'_cons.mp hch with ⟨h1, h2⟩
    have h3 := ih y (fun x hx => h x (List.mem_cons_of_mem w hx)) h2
    calc w.start ≤ w.stop := h w (List.mem_cons_self w _)
      _ ≤ y.start := h1
      _ ≤ (ys.getLastD y).stop := h3

/-! ## Claim theorems: phrase segmentation -/

/-- C3: for every non-empty word stream, the returned phrases are exactly
`phraseOfRun` over a list of non-empty contiguous runs whose concatenation
is the input stream: every word is covered exactly once, in the original
order, with nothing omitted, duplicated or reordered, and each phrase's
text is the space-joined trimmed text of one contiguous run. -/
theorem group_words_partition (words : List Word) (tgt : ℕ) (_hw : words ≠ []) :
    ∃ runs : List (List Word),
      group_words_into_phrases words tgt = Except.ok (runs.map phraseOfRun) ∧
      runs.flatten = words ∧ (∀ r ∈ runs, r ≠ []) := by
  obtain ⟨runs, heq, hjoin, hne, _⟩ := segLoop_spec tgt words [] 0 List.chain'_nil
  exact ⟨runs, heq, by simpa using hjoin, hne⟩

/-- Witness for the partition theorem at a concrete two-word stream. -/
theorem group_words_partition_witness :
    ([⟨"go", 0, 1/2⟩, ⟨"now", 3/5, 1⟩] : List Word) ≠ [] ∧
    ∃ runs : List (List Word),
      group_words_into_phrases [⟨"go", 0, 1/2⟩, ⟨"now", 3/5, 1⟩] 5
        = Except.ok (runs.map phraseOfRun) ∧
      runs.flatten = [⟨"go", 0, 1/2⟩, ⟨"now", 3/5, 1⟩] ∧ (∀ r ∈ runs, r ≠ []) :=
  ⟨by simp, group_words_partition _ 5 (by simp)⟩

/-- C4: a pause longer than 0.7s between consecutive words always falls on
a phrase boundary: within every returned run, consecutive words are at
most 0.7s apart, so two words straddling a longer pause land in distinct
phrases regardless of the accumulated count.  Concretely, for words at
[0,0.1], [0.2,0.3], [1.1,1.2] the boundary falls before the third word. -/
theorem group_words_pause_boundary :
    (∀ (words : List Word) (tgt : ℕ),
      ∃ runs : List (List Word),
        group_words_into_phrases words tgt = Except.ok (runs.map phraseOfRun) ∧
        runs.flatten = words ∧
        ∀ r ∈ runs, List.Chain' gapOK r) ∧
    group_words_into_phrases [⟨"a", 0, 1/10⟩, ⟨"b", 1/5, 3/10⟩, ⟨"c", 11/10, 6/5⟩] 5
      = Except.ok [⟨"a b", 0, 3/10⟩, ⟨"c", 11/10, 6/5⟩] := by
  constructor
  · intro words tgt
    obtain ⟨runs, heq, hjoin, _, hch⟩ := segLoop_spec tgt words [] 0 List.chain'_nil
    exact ⟨runs, heq, by simpa using hjoin, hch⟩
  · norm_num [group_words_into_phrases, segLoop, newPhraseCond, pyLast, closePhrase,
      phraseOfRun, CaptionPhrase.mk.injEq, pyStrip]
    exact ⟨rfl, rfl⟩

/-- C5: on a well-formed stream every emitted phrase spans from its first
word's start to its last word's end, hence `end_time ≥ start_time`, and
every emitted run is non-empty. -/
theorem group_words_phrase_times (words : List Word) (tgt : ℕ)
    (hse : ∀ w ∈ words, w.start ≤ w.stop)
    (hord : List.Chain' (fun a b => a.stop ≤ b.start) words) :
    ∃ runs : List (List Word),
      group_words_into_phrases words tgt = Except.ok (runs.map phraseOfRun) ∧
      runs.flatten = words ∧ (∀ r ∈ runs, r ≠ []) ∧
      ∀ r ∈ runs, ∀ w ws, r = w :: ws →
        (phraseOfRun r).start_time = w.start ∧
        (phraseOfRun r).end_time = (ws.getLastD w).stop ∧
        (phraseOfRun r).start_time ≤ (phraseOfRun r).end_time := by
  obtain ⟨runs, heq, hjoin, hne, _⟩ := segLoop_spec tgt words [] 0 List.chain'_nil
  rw [List.nil_append] at hjoin
  refine ⟨runs, heq, hjoin, hne, ?_⟩
  intro r hr w ws hrw
  subst hrw
  have hchain : List.Chain' (fun a b => a.stop ≤ b.start) (w :: ws) := by
    apply chain'_of_mem_join runs _ _ hr
    rw [hjoin]
    exact hord
  have hmem : ∀ x ∈ w :: ws, x.start ≤ x.stop := by
    intro x hx
    apply hse
    rw [← hjoin]
    exact List.mem_flatten.mpr ⟨w :: ws, hr, hx⟩
  exact ⟨rfl, rfl, run_start_le_stop ws w hmem hchain⟩

/-- Witness for the phrase-times theorem at a concrete two-word stream. -/
theorem group_words_phrase_times_witness :
    (∀ w ∈ ([⟨"hi", 0, 2/5⟩, ⟨"there", 1/2, 9/10⟩] : List Word), w.start ≤ w.stop) ∧
    List.Chain' (fun a b => a.stop ≤ b.start)
      ([⟨"hi", 0, 2/5⟩, ⟨"there", 1/2, 9/10⟩] : List Word) ∧
    ∃ runs : List (List Word),
      group_words_into_phrases [⟨"hi", 0, 2/5⟩, ⟨"there", 1/2, 9/10⟩] 5
        = Except.ok (runs.map phraseOfRun) ∧
      runs.flatten = [⟨"hi", 0, 2/5⟩, ⟨"there", 1/2, 9/10⟩] ∧ (∀ r ∈ runs, r ≠ []) ∧
      ∀ r ∈ runs, ∀ w ws, r = w :: ws →
        (phraseOfRun r).start_time = w.start ∧
        (phraseOfRun r).end_time = (ws.getLastD w).stop ∧
        (phraseOfRun r).start_time ≤ (phraseOfRun r).end_time :=
  ⟨by norm_num, by norm_num [List.chain'_cons, List.chain'_singleton],
    group_words_phrase_times _ 5 (by norm_num)
      (by norm_num [List.chain'_cons, List.chain'_singleton])⟩

/-- C6: segmentation is total on every input: the empty-accumulator test
short-circuits before the last-element access and the span test, so the
embedded IndexError path is never taken and no input makes the loop fail;
the empty input yields the empty output. -/
theorem group_words_total :
    (∀ (words : List Word) (tgt : ℕ),
      ∃ ps, group_words_into_phrases words tgt = Except.ok ps) ∧
    ∀ tgt : ℕ, group_words_into_phrases [] tgt = Except.ok [] := by
  constructor
  · intro words tgt
    obtain ⟨runs, heq, _, _, _⟩ := segLoop_spec tgt words [] 0 List.chain'_nil
    exact ⟨runs.map phraseOfRun, heq⟩
  · intro tgt
    rfl

/-! ## Sequence builder lemmas -/

lemma entriesDuration_cons (e : ClipPlanEntry) (es : List ClipPlanEntry) :
    entriesDuration (e :: es) = entryDur e + entriesDuration es := by
  simp [entriesDuration]

lemma entriesDuration_append (l₁ l₂ : List ClipPlanEntry) :
    entriesDuration (l₁ ++ l₂) = entriesDuration l₁ + entriesDuration l₂ := by
  simp [entriesDuration]

lemma entriesDuration_singleton (e : ClipPlanEntry) :
    entriesDuration [e] = entryDur e := by
  simp [entriesDuration]

lemma cappedPoolDuration_nonneg (pool : List ClipDescriptor)
    (h : ∀ d ∈ pool, 0 < d.duration) : 0 ≤ cappedPoolDuration pool := by
  apply List.sum_nonneg
  intro x hx
  obtain ⟨d, hd, rfl⟩ := List.mem_map.mp hx
  exact le_min (by norm_num) (h d (List.mem_of_mem_filter hd)).le

lemma cappedPoolDuration_cons_readable {d : ClipDescriptor} (hd : d.readable = true)
    (ds : List ClipDescriptor) :
    cappedPoolDuration (d :: ds) = min 5 d.duration + cappedPoolDuration ds := by
  simp [cappedPoolDuration, List.filter_cons, hd]

lemma cappedPoolDuration_cons_unreadable {d : ClipDescriptor} (hd : d.readable = false)
    (ds : List ClipDescriptor) :
    cappedPoolDuration (d :: ds) = cappedPoolDuration ds := by
  simp [cappedPoolDuration, List.filter_cons, hd]

lemma process_video_clip_ok {d : ClipDescriptor} {e : ClipPlanEntry}
    (h : process_video_clip d = Except.ok e) :
    d.readable = true ∧ e.source = d ∧ e.trim_start = 0 ∧ e.trim_end = min 5 d.duration := by
  by_cases hd : d.readable
  · rw [process_video_clip, if_pos hd] at h
    injection h with h'
    subst h'
    exact ⟨hd, rfl, rfl, rfl⟩
  · rw [process_video_clip, if_neg hd] at h
    cases h

/-- Master invariant of the clip-selection loop: the accumulator only ever
grows by entries produced by `process_video_clip` on pool members; the
returned total is the accumulated sum; the result is empty exactly when
every descriptor is unreadable; when the loop stops at or past the target,
the sum before its final entry was still short of the target; and when
even the capped pool total is short of the target, the loop consumes the
whole pool. -/
lemma sequenceLoop_spec (target : ℚ) :
    ∀ (pool : List ClipDescriptor) (acc : List ClipPlanEntry) (total : ℚ),
      (∀ d ∈ pool, 0 < d.duration) →
      ∃ new : List ClipPlanEntry,
        (sequenceLoop pool target acc total).1 = acc ++ new ∧
        (sequenceLoop pool target acc total).2 = total + entriesDuration new ∧
        (∀ e ∈ new, ∃ d, d ∈ pool ∧ process_video_clip d = Except.ok e) ∧
        (new = [] ↔ ∀ d ∈ pool, d.readable = false) ∧
        (total < target → target ≤ (sequenceLoop pool target acc total).2 →
          ∃ front lastE, new = front ++ [lastE] ∧
            total + entriesDuration front < target) ∧
        (total + cappedPoolDuration pool < target →
          entriesDuration new = cappedPoolDuration pool) := by
  intro pool
  induction pool with
  | nil =>
    intro acc total _
    refine ⟨[], by simp [sequenceLoop], by simp [sequenceLoop, entriesDuration], by simp,
      by simp, ?_, ?_⟩
    · intro h1 h2
      have h3 : (sequenceLoop [] target acc total).2 = total := rfl
      rw [h3] at h2
      exact absurd h2 (not_le.mpr h1)
    · intro _
      rfl
  | cons d ds ih =>
    intro acc total hpos
    have hpds : ∀ x ∈ ds, 0 < x.duration := fun x hx => hpos x (List.mem_cons_of_mem d hx)
    by_cases hd : d.readable
    · have hproc : process_video_clip d = Except.ok ⟨d, 0, min 5 d.duration⟩ := by
        rw [process_video_clip, if_pos hd]
      have hdur : entryDur (⟨d, 0, min 5 d.duration⟩ : ClipPlanEntry) = min 5 d.duration := by
        simp [entryDur]
      by_cases hbr : target ≤ total + entryDur (⟨d, 0, min 5 d.duration⟩ : ClipPlanEntry)
      · have hloop : sequenceLoop (d :: ds) target acc total
            = (acc ++ [⟨d, 0, min 5 d.duration⟩], total + entryDur ⟨d, 0, min 5 d.duration⟩) := by
          simp only [sequenceLoop, hproc]
          rw [if_pos hbr]
        refine ⟨[⟨d, 0, min 5 d.duration⟩], by rw [hloop],
          by rw [hloop]; simp [entriesDuration], ?_, ?_, ?_, ?_⟩
        · intro x hx
          rw [List.mem_singleton] at hx
          subst hx
          exact ⟨d, List.mem_cons_self d ds, hproc⟩
        · refine iff_of_false (by simp) ?_
          intro h
          have := h d (List.mem_cons_self d ds)
          rw [hd] at this
          cases this
        · intro h1 _
          refine ⟨[], ⟨d, 0, min 5 d.duration⟩, rfl, ?_⟩
          simpa [entriesDuration] using h1
        · intro hcap
          exfalso
          rw [cappedPoolDuration_cons_readable hd] at hcap
          have h0 : 0 ≤ cappedPoolDuration ds := cappedPoolDuration_nonneg ds hpds
          rw [hdur] at hbr
          linarith
      · have hloop : sequenceLoop (d :: ds) target acc total
            = sequenceLoop ds target (acc ++ [⟨d, 0, min 5 d.duration⟩])
                (total + entryDur ⟨d, 0, min 5 d.duration⟩) := by
          simp only [sequenceLoop, hproc]
          rw [if_neg hbr]
        obtain ⟨new', h1, h2, h3, h4, h5, h6⟩ :=
          ih (acc ++ [⟨d, 0, min 5 d.duration⟩])
            (total + entryDur ⟨d, 0, min 5 d.duration⟩) hpds
        refine ⟨⟨d, 0, min 5 d.duration⟩ :: new', ?_, ?_, ?_, ?_, ?_, ?_⟩
        · rw [hloop, h1, List.append_assoc]
          rfl
        · rw [hloop, h2, entriesDuration_cons]
          ring
        · intro x hx
          rcases List.mem_cons.mp hx with rfl | hx'
          · exact ⟨d, List.mem_cons_self d ds, hproc⟩
          · obtain ⟨d', hd', hp'⟩ := h3 x hx'
            exact ⟨d', List.mem_cons_of_mem d hd', hp'⟩
        · refine iff_of_false (by simp) ?_
          intro h
          have := h d (List.mem_cons_self d ds)
          rw [hd] at this
          cases this
        · intro hlt hge
          rw [hloop] at hge
          obtain ⟨front', lastE, hsplit, hfront⟩ := h5 (not_le.mp hbr) hge
          refine ⟨⟨d, 0, min 5 d.duration⟩ :: front', lastE, by rw [hsplit]; rfl, ?_⟩
          rw [entriesDuration_cons]
          linarith
        · intro hcap
          rw [cappedPoolDuration_cons_readable hd] at hcap
          have h6' := h6 (by rw [hdur]; linarith)
          rw [entriesDuration_cons, h6', cappedPoolDuration_cons_readable hd, hdur]
    · have hd' : d.readable = false := by simpa using hd
      have hproc : process_video_clip d = Except.error "could not be read" := by
        rw [process_video_clip, if_neg hd]
      have hloop : sequenceLoop (d :: ds) target acc total
          = sequenceLoop ds target acc total := by
        simp only [sequenceLoop, hproc]
      obtain ⟨new, h1, h2, h3, h4, h5, h6⟩ := ih acc total hpds
      refine ⟨new, by rw [hloop]; exact h1, by rw [hloop]; exact h2, ?_, ?_, ?_, ?_⟩
      · intro x hx
        obtain ⟨d', hd'', hp'⟩ := h3 x hx
        exact ⟨d', List.mem_cons_of_mem d hd'', hp'⟩
      · rw [h4]
        constructor
        · intro h x hx
          rcases List.mem_cons.mp hx with rfl | hx'
          · exact hd'
          · exact h x hx'
        · intro h x hx
          exact h x (List.mem_cons_of_mem d hx)
      · intro hlt hge
        rw [hloop] at hge
        exact h5 hlt hge
      · intro hcap
        rw [cappedPoolDuration_cons_unreadable hd' ds] at hcap ⊢
        exact h6 hcap

lemma entriesDuration_nonneg {es : List ClipPlanEntry}
    (h : ∀ e ∈ es, 0 ≤ entryDur e) : 0 ≤ entriesDuration es := by
  apply List.sum_nonneg
  intro x hx
  obtain ⟨e, he, rfl⟩ := List.mem_map.mp hx
  exact h e he

/-- Cutting a concatenation strictly inside its last entry keeps every
earlier entry whole and only shortens the last one. -/
lemma truncateEntries_split :
    ∀ (front : List ClipPlanEntry) (lastE : ClipPlanEntry) (t : ℚ),
      (∀ x ∈ front, 0 ≤ entryDur x) →
      entriesDuration front < t →
      t < entriesDuration (front ++ [lastE]) →
      truncateEntries (front ++ [lastE]) t
        = front ++ [{ lastE with trim_end := lastE.trim_start + (t - entriesDuration front) }] := by
  intro front
  induction front with
  | nil =>
    intro lastE t _ h1 h2
    have hlt : t < entryDur lastE := by
      simpa [entriesDuration_singleton] using h2
    have h0 : entriesDuration ([] : List ClipPlanEntry) = 0 := rfl
    rw [List.nil_append, truncateEntries, if_pos hlt, h0, List.nil_append, sub_zero]
  | cons x front' ih =>
    intro lastE t hnn h1 h2
    have hx : 0 ≤ entryDur x := hnn x (List.mem_cons_self x front')
    have hfr' : ∀ y ∈ front', 0 ≤ entryDur y := fun y hy => hnn y (List.mem_cons_of_mem x hy)
    have h0 : 0 ≤ entriesDuration front' := entriesDuration_nonneg hfr'
    rw [entriesDuration_cons] at h1
    have h1' : entriesDuration front' < t - entryDur x := by linarith
    have h2' : t - entryDur x < entriesDuration (front' ++ [lastE]) := by
      rw [List.cons_append, entriesDuration_cons] at h2
      linarith
    have hnlt : ¬ t < entryDur x := not_lt.mpr (by linarith)
    rw [List.cons_append, truncateEntries, if_neg hnlt, ih lastE (t - entryDur x) hfr' h1' h2']
    have heq : t - entryDur x - entriesDuration front' = t - entriesDuration (x :: front') := by
      rw [entriesDuration_cons]
      ring
    rw [heq, List.cons_append]

/-- Every entry the loop accumulates has effective duration at most 5s. -/
lemma sequenceLoop_entries_le5 (target : ℚ) :
    ∀ (pool : List ClipDescriptor) (acc : List ClipPlanEntry) (total : ℚ),
      (∀ x ∈ acc, entryDur x ≤ 5) →
      ∀ x ∈ (sequenceLoop pool target acc total).1, entryDur x ≤ 5 := by
  intro pool
  induction pool with
  | nil =>
    intro acc total hacc
    simpa [sequenceLoop] using hacc
  | cons d ds ih =>
    intro acc total hacc
    by_cases hd : d.readable
    · have hproc : process_video_clip d = Except.ok ⟨d, 0, min 5 d.duration⟩ := by
        rw [process_video_clip, if_pos hd]
      have hacc' : ∀ x ∈ acc ++ [(⟨d, 0, min 5 d.duration⟩ : ClipPlanEntry)], entryDur x ≤ 5 := by
        intro x hx
        rcases List.mem_append.mp hx with hx' | hx'
        · exact hacc x hx'
        · rw [List.mem_singleton] at hx'
          subst hx'
          simp [entryDur]
      by_cases hbr : target ≤ total + entryDur (⟨d, 0, min 5 d.duration⟩ : ClipPlanEntry)
      · intro x hx
        rw [show sequenceLoop (d :: ds) target acc total
            = (acc ++ [⟨d, 0, min 5 d.duration⟩], total + entryDur ⟨d, 0, min 5 d.duration⟩)
            from by simp only [sequenceLoop, hproc]; rw [if_pos hbr]] at hx
        exact hacc' x hx
      · intro x hx
        rw [show sequenceLoop (d :: ds) target acc total
            = sequenceLoop ds target (acc ++ [⟨d, 0, min 5 d.duration⟩])
                (total + entryDur ⟨d, 0, min 5 d.duration⟩)
            from by simp only [sequenceLoop, hproc]; rw [if_neg hbr]] at hx
        exact ih _ _ hacc' x hx
    · have hproc : process_video_clip d = Except.error "could not be read" := by
        rw [process_video_clip, if_neg hd]
      intro x hx
      rw [show sequenceLoop (d :: ds) target acc total = sequenceLoop ds target acc total
          from by simp only [sequenceLoop, hproc]] at hx
      exact ih _ _ hacc x hx

/-- Truncation never lengthens an entry. -/
lemma truncateEntries_le5 :
    ∀ (es : List ClipPlanEntry) (t : ℚ), (∀ x ∈ es, entryDur x ≤ 5) →
      ∀ x ∈ truncateEntries es t, entryDur x ≤ 5 := by
  intro es
  induction es with
  | nil =>
    intro t _ x hx
    rw [truncateEntries] at hx
    cases hx
  | cons e es' ih =>
    intro t h x hx
    by_cases hc : t < entryDur e
    · rw [truncateEntries, if_pos hc, List.mem_singleton] at hx
      subst hx
      have h5 : entryDur e ≤ 5 := h e (List.mem_cons_self e es')
      simp only [entryDur] at *
      linarith
    · rw [truncateEntries, if_neg hc] at hx
      rcases List.mem_cons.mp hx with rfl | hx'
      · exact h x (List.mem_cons_self x es')
      · exact ih (t - entryDur e) (fun y hy => h y (List.mem_cons_of_mem e hy)) x hx'

/-- Shape of a successful build: the loop's selection was non-empty, the
plan entries are the (possibly truncated) selection, and the stored total
is their duration. -/
lemma create_video_sequence_ok {pool : List ClipDescriptor} {target : ℚ} {plan : SequencePlan}
    (hok : create_video_sequence pool target = Except.ok plan) :
    (sequenceLoop pool target [] 0).1 ≠ [] ∧
    plan.entries = (if target < (sequenceLoop pool target [] 0).2
      then truncateEntries (sequenceLoop pool target [] 0).1 target
      else (sequenceLoop pool target [] 0).1) ∧
    plan.total_duration = entriesDuration plan.entries := by
  unfold create_video_sequence at hok
  by_cases hemp : ((sequenceLoop pool target [] 0).1).isEmpty
  · rw [if_pos hemp] at hok
    cases hok
  · rw [if_neg hemp] at hok
    injection hok with h
    subst h
    exact ⟨by simpa [List.isEmpty_iff] using hemp, rfl, rfl⟩

/-- Core accounting for a successful build: the returned total duration is
the minimum of the loop's accumulated duration and the target, never above
the target; when the accumulated duration reached the target, the plan
keeps every selected clip in order and only the final one is shortened. -/
lemma create_total_duration {pool : List ClipDescriptor} {target : ℚ} {plan : SequencePlan}
    (htp : 0 < target) (hpos : ∀ d ∈ pool, 0 < d.duration)
    (hok : create_video_sequence pool target = Except.ok plan) :
    plan.total_duration = min ((sequenceLoop pool target [] 0).2) target ∧
    plan.total_duration ≤ target ∧
    (target ≤ (sequenceLoop pool target [] 0).2 →
      plan.total_duration = target ∧
      plan.entries.map ClipPlanEntry.source
        = ((sequenceLoop pool target [] 0).1).map ClipPlanEntry.source ∧
      plan.entries.dropLast = ((sequenceLoop pool target [] 0).1).dropLast) := by
  obtain ⟨hne, hentries, htot⟩ := create_video_sequence_ok hok
  obtain ⟨new, h1, h2, h3, _, h5, _⟩ := sequenceLoop_spec target pool [] 0 hpos
  rw [List.nil_append] at h1
  have hL2 : (sequenceLoop pool target [] 0).2
      = entriesDuration ((sequenceLoop pool target [] 0).1) := by
    rw [h2, h1, zero_add]
  by_cases htr : target < (sequenceLoop pool target [] 0).2
  · obtain ⟨front, lastE, hsplit, hfront0⟩ := h5 htp htr.le
    have hfront : entriesDuration front < target := by simpa using hfront0
    have hfnn : ∀ x ∈ front, 0 ≤ entryDur x := by
      intro x hx
      obtain ⟨d, hd, hp⟩ := h3 x (hsplit ▸ List.mem_append_left _ hx)
      obtain ⟨_, _, hts, hte⟩ := process_video_clip_ok hp
      have hxd : entryDur x = min 5 d.duration := by rw [entryDur, hts, hte, sub_zero]
      rw [hxd]
      exact le_min (by norm_num) (hpos d hd).le
    have htlt : target < entriesDuration (front ++ [lastE]) := by
      rw [← hsplit, ← h1, ← hL2]
      exact htr
    have htrunc := truncateEntries_split front lastE target hfnn hfront htlt
    have hent : plan.entries = front
        ++ [{ lastE with trim_end := lastE.trim_start + (target - entriesDuration front) }] := by
      rw [hentries, if_pos htr, h1, hsplit, htrunc]
    have hdtot : plan.total_duration = target := by
      rw [htot, hent, entriesDuration_append, entriesDuration_singleton]
      simp only [entryDur]
      ring
    refine ⟨by rw [hdtot, min_eq_right htr.le], by rw [hdtot], ?_⟩
    intro _
    refine ⟨hdtot, ?_, ?_⟩
    · rw [hent, h1, hsplit]
      simp
    · rw [hent, h1, hsplit, List.dropLast_concat, List.dropLast_concat]
  · have hle : (sequenceLoop pool target [] 0).2 ≤ target := not_lt.mp htr
    have hent : plan.entries = (sequenceLoop pool target [] 0).1 := by
      rw [hentries, if_neg htr]
    have hdtot : plan.total_duration = (sequenceLoop pool target [] 0).2 := by
      rw [htot, hent, hL2]
    refine ⟨by rw [hdtot, min_eq_left hle], by rw [hdtot]; exact hle, ?_⟩
    intro hge
    have heq : (sequenceLoop pool target [] 0).2 = target := le_antisymm hle hge
    exact ⟨by rw [hdtot, heq], by rw [hent], by rw [hent]⟩

/-- Deleting an unreadable descriptor anywhere in the pool leaves the loop
unchanged. -/
lemma sequenceLoop_skip (target : ℚ) (bad : ClipDescriptor) (hbad : bad.readable = false) :
    ∀ (pre post : List ClipDescriptor) (acc : List ClipPlanEntry) (total : ℚ),
      sequenceLoop (pre ++ bad :: post) target acc total
        = sequenceLoop (pre ++ post) target acc total := by
  have hprocb : process_video_clip bad = Except.error "could not be read" := by
    rw [process_video_clip, if_neg (by simp [hbad])]
  intro pre
  induction pre with
  | nil =>
    intro post acc total
    simp only [List.nil_append, sequenceLoop, hprocb]
  | cons d pre' ih =>
    intro post acc total
    simp only [List.cons_append]
    cases hp : process_video_clip d with
    | error e =>
      rw [show sequenceLoop (d :: (pre' ++ bad :: post)) target acc total
          = sequenceLoop (pre' ++ bad :: post) target acc total
          from by simp only [sequenceLoop, hp]]
      rw [show sequenceLoop (d :: (pre' ++ post)) target acc total
          = sequenceLoop (pre' ++ post) target acc total
          from by simp only [sequenceLoop, hp]]
      exact ih post acc total
    | ok e =>
      by_cases hbr : target ≤ total + entryDur e
      · rw [show sequenceLoop (d :: (pre' ++ bad :: post)) target acc total
            = (acc ++ [e], total + entryDur e)
            from by simp only [sequenceLoop, hp]; rw [if_pos hbr]]
        rw [show sequenceLoop (d :: (pre' ++ post)) target acc total
            = (acc ++ [e], total + entryDur e)
            from by simp only [sequenceLoop, hp]; rw [if_pos hbr]]
      · rw [show sequenceLoop (d :: (pre' ++ bad :: post)) target acc total
            = sequenceLoop (pre' ++ bad :: post) target (acc ++ [e]) (total + entryDur e)
            from by simp only [sequenceLoop, hp]; rw [if_neg hbr]]
        rw [show sequenceLoop (d :: (pre' ++ post)) target acc total
            = sequenceLoop (pre' ++ post) target (acc ++ [e]) (total + entryDur e)
            from by simp only [sequenceLoop, hp]; rw [if_neg hbr]]
        exact ih post (acc ++ [e]) (total + entryDur e)

/-! ## Claim theorems: sequence builder -/

/-- C2: a returned plan never exceeds the target duration; whenever the
loop's accumulated duration reached the target, the total equals the
target exactly, every selected clip is kept in order, and only the final
entry is altered — by shortening its end, never by dropping it. -/
theorem create_video_sequence_duration_bound (pool : List ClipDescriptor) (target : ℚ)
    (htp : 0 < target) (hpos : ∀ d ∈ pool, 0 < d.duration) :
    ∀ plan, create_video_sequence pool target = Except.ok plan →
      plan.total_duration ≤ target ∧
      (target ≤ (sequenceLoop pool target [] 0).2 →
        plan.total_duration = target ∧
        plan.entries.map ClipPlanEntry.source
          = ((sequenceLoop pool target [] 0).1).map ClipPlanEntry.source ∧
        plan.entries.dropLast = ((sequenceLoop pool target [] 0).1).dropLast) := by
  intro plan hok
  have h := create_total_duration htp hpos hok
  exact ⟨h.2.1, h.2.2⟩

/-- Witness for the duration-bound theorem: a pool of a 3s and a 4s clip
against a 5s target yields a plan of exactly 5s. -/
theorem create_video_sequence_duration_bound_witness :
    (0 : ℚ) < 5 ∧
    (⟨[⟨⟨0, 3, true⟩, 0, 3⟩, ⟨⟨1, 4, true⟩, 0, 2⟩], 5⟩ : SequencePlan).total_duration ≤ 5 :=
  ⟨by norm_num,
    (create_video_sequence_duration_bound [⟨0, 3, true⟩, ⟨1, 4, true⟩] 5 (by norm_num)
      (by intro d hd; fin_cases hd <;> norm_num)
      ⟨[⟨⟨0, 3, true⟩, 0, 3⟩, ⟨⟨1, 4, true⟩, 0, 2⟩], 5⟩
      (by norm_num [create_video_sequence, sequenceLoop, process_video_clip, entryDur,
        entriesDuration, truncateEntries, SequencePlan.mk.injEq, ClipPlanEntry.mk.injEq])).1⟩

/-- C10: the build raises exactly when no descriptor in the pool is
processable (the pool is empty or every descriptor is unreadable); a
returned plan's total duration is the minimum of the loop's accumulated
duration and the target. -/
theorem create_video_sequence_error_iff (pool : List ClipDescriptor) (target : ℚ)
    (htp : 0 < target) (hpos : ∀ d ∈ pool, 0 < d.duration) :
    ((∃ msg, create_video_sequence pool target = Except.error msg) ↔
      ∀ d ∈ pool, d.readable = false) ∧
    ((∃ d ∈ pool, d.readable = true) →
      ∃ plan, create_video_sequence pool target = Except.ok plan) ∧
    ∀ plan, create_video_sequence pool target = Except.ok plan →
      plan.total_duration = min ((sequenceLoop pool target [] 0).2) target := by
  obtain ⟨new, h1, _, _, h4, _, _⟩ := sequenceLoop_spec target pool [] 0 hpos
  rw [List.nil_append] at h1
  refine ⟨?_, ?_, ?_⟩
  · constructor
    · rintro ⟨msg, hmsg⟩
      unfold create_video_sequence at hmsg
      by_cases hemp : ((sequenceLoop pool target [] 0).1).isEmpty
      · apply h4.mp
        rw [← h1]
        exact List.isEmpty_iff.mp hemp
      · rw [if_neg hemp] at hmsg
        cases hmsg
    · intro hall
      refine ⟨"No video clips could be processed.", ?_⟩
      have hnil : (sequenceLoop pool target [] 0).1 = [] := by
        rw [h1]
        exact h4.mpr hall
      unfold create_video_sequence
      rw [if_pos (by simp [hnil])]
  · rintro ⟨d, hd, hdr⟩
    have hne : new ≠ [] := by
      intro hnil
      have hxx := h4.mp hnil d hd
      rw [hdr] at hxx
      cases hxx
    have hemp : ¬ ((sequenceLoop pool target [] 0).1).isEmpty = true := by
      rw [h1]
      simpa [List.isEmpty_iff] using hne
    refine ⟨⟨if target < (sequenceLoop pool target [] 0).2
        then truncateEntries ((sequenceLoop pool target [] 0).1) target
        else (sequenceLoop pool target [] 0).1,
      entriesDuration (if target < (sequenceLoop pool target [] 0).2
        then truncateEntries ((sequenceLoop pool target [] 0).1) target
        else (sequenceLoop pool target [] 0).1)⟩, ?_⟩
    unfold create_video_sequence
    rw [if_neg hemp]
  · intro plan hok
    exact (create_total_duration htp hpos hok).1

/-- Witness for the error-iff theorem: a single readable 3s clip against a
5s target yields total duration `min 3 5 = 3`. -/
theorem create_video_sequence_error_iff_witness :
    (0 : ℚ) < 5 ∧
    (⟨[⟨⟨0, 3, true⟩, 0, 3⟩], 3⟩ : SequencePlan).total_duration
      = min ((sequenceLoop [⟨0, 3, true⟩] 5 [] 0).2) 5 :=
  ⟨by norm_num,
    (create_video_sequence_error_iff [⟨0, 3, true⟩] 5 (by norm_num)
      (by intro d hd; fin_cases hd; norm_num)).2.2
      ⟨[⟨⟨0, 3, true⟩, 0, 3⟩], 3⟩
      (by norm_num [create_video_sequence, sequenceLoop, process_video_clip, entryDur,
        entriesDuration, truncateEntries, SequencePlan.mk.injEq, ClipPlanEntry.mk.injEq])⟩

/-- C1 counterexample: a pool with one readable 3-second clip and a
10-second target.  The capped pool duration 3 is below the target 10,
yet `create_video_sequence` succeeds with a 3-second plan instead of
failing with an insufficient-clips error. -/
theorem create_video_sequence_short_pool_cex :
    cappedPoolDuration [⟨0, 3, true⟩] < 10 ∧
    create_video_sequence [⟨0, 3, true⟩] 10
      = Except.ok ⟨[⟨⟨0, 3, true⟩, 0, 3⟩], 3⟩ ∧
    (3 : ℚ) < 10 := by
  refine ⟨by norm_num [cappedPoolDuration], ?_, by norm_num⟩
  norm_num [create_video_sequence, sequenceLoop, process_video_clip, entryDur,
    entriesDuration, truncateEntries, SequencePlan.mk.injEq, ClipPlanEntry.mk.injEq]

/-- C1 amended: when the capped pool duration is below the target, the
build fails only when no descriptor at all is processable (raising the
ValueError message of the source); if at least one descriptor is readable
it does not raise, and any returned plan totals exactly the capped pool
duration, strictly short of the target. -/
theorem create_video_sequence_short_pool (pool : List ClipDescriptor) (target : ℚ)
    (_htp : 0 < target) (hpos : ∀ d ∈ pool, 0 < d.duration)
    (hshort : cappedPoolDuration pool < target) :
    ((∃ d ∈ pool, d.readable = true) →
      (∀ msg, create_video_sequence pool target ≠ Except.error msg) ∧
      ∀ plan, create_video_sequence pool target = Except.ok plan →
        plan.total_duration = cappedPoolDuration pool ∧ plan.total_duration < target) ∧
    ((∀ d ∈ pool, d.readable = false) →
      create_video_sequence pool target = Except.error "No video clips could be processed.") := by
  obtain ⟨new, h1, h2, _, h4, _, h6⟩ := sequenceLoop_spec target pool [] 0 hpos
  rw [List.nil_append] at h1
  have hcap : entriesDuration new = cappedPoolDuration pool := h6 (by simpa using hshort)
  have hfin : (sequenceLoop pool target [] 0).2 = cappedPoolDuration pool := by
    rw [h2, hcap, zero_add]
  constructor
  · rintro ⟨d, hd, hdr⟩
    have hne : new ≠ [] := by
      intro hnil
      have hxx := h4.mp hnil d hd
      rw [hdr] at hxx
      cases hxx
    have hemp : ¬ ((sequenceLoop pool target [] 0).1).isEmpty = true := by
      rw [h1]
      simpa [List.isEmpty_iff] using hne
    have hntr : ¬ target < (sequenceLoop pool target [] 0).2 := by
      rw [hfin]
      exact not_lt.mpr hshort.le
    have hcreate : create_video_sequence pool target
        = Except.ok ⟨(sequenceLoop pool target [] 0).1,
            entriesDuration ((sequenceLoop pool target [] 0).1)⟩ := by
      unfold create_video_sequence
      rw [if_neg hemp, if_neg hntr]
    constructor
    · intro msg
      rw [hcreate]
      simp
    · intro plan hplan
      rw [hcreate] at hplan
      injection hplan with hplan'
      rw [← hplan']
      constructor
      · show entriesDuration ((sequenceLoop pool target [] 0).1) = cappedPoolDuration pool
        rw [h1, hcap]
      · show entriesDuration ((sequenceLoop pool target [] 0).1) < target
        rw [h1, hcap]
        exact hshort
  · intro hall
    have hnil : (sequenceLoop pool target [] 0).1 = [] := by
      rw [h1]
      exact h4.mpr hall
    unfold create_video_sequence
    rw [if_pos (by simp [hnil])]

/-- Witness for the amended short-pool theorem at the counterexample
input. -/
theorem create_video_sequence_short_pool_witness :
    (0 : ℚ) < 10 ∧ cappedPoolDuration [⟨0, 3, true⟩] < 10 ∧
    (⟨[⟨⟨0, 3, true⟩, 0, 3⟩], 3⟩ : SequencePlan).total_duration
        = cappedPoolDuration [⟨0, 3, true⟩] ∧
    (⟨[⟨⟨0, 3, true⟩, 0, 3⟩], 3⟩ : SequencePlan).total_duration < 10 :=
  ⟨by norm_num, by norm_num [cappedPoolDuration],
    ((create_video_sequence_short_pool [⟨0, 3, true⟩] 10 (by norm_num)
        (by intro d hd; fin_cases hd; norm_num)
        (by norm_num [cappedPoolDuration])).1
      ⟨⟨0, 3, true⟩, List.mem_singleton_self _, rfl⟩).2
      ⟨[⟨⟨0, 3, true⟩, 0, 3⟩], 3⟩
      (by norm_num [create_video_sequence, sequenceLoop, process_video_clip, entryDur,
        entriesDuration, truncateEntries, SequencePlan.mk.injEq, ClipPlanEntry.mk.injEq])⟩

/-- C7: per-clip normalization zeroes `trim_start` and caps `trim_end` at
`min(5, native duration)`, and every entry of every plan the builder
returns has effective duration `trim_end - trim_start ≤ 5` seconds. -/
theorem plan_entries_capped :
    (∀ (d : ClipDescriptor) (e : ClipPlanEntry), process_video_clip d = Except.ok e →
      e.trim_start = 0 ∧ e.trim_end = min 5 d.duration) ∧
    ∀ (pool : List ClipDescriptor) (target : ℚ) (plan : SequencePlan),
      create_video_sequence pool target = Except.ok plan →
      ∀ e ∈ plan.entries, e.trim_end - e.trim_start ≤ 5 := by
  constructor
  · intro d e h
    obtain ⟨_, _, h3, h4⟩ := process_video_clip_ok h
    exact ⟨h3, h4⟩
  · intro pool target plan hok e he
    obtain ⟨_, hentries, _⟩ := create_video_sequence_ok hok
    have hloop := sequenceLoop_entries_le5 target pool [] 0 (by intro x hx; cases hx)
    rw [hentries] at he
    by_cases htr : target < (sequenceLoop pool target [] 0).2
    · rw [if_pos htr] at he
      exact truncateEntries_le5 _ target hloop e he
    · rw [if_neg htr] at he
      exact hloop e he

/-- Witness for the capping theorem at a concrete clip and plan. -/
theorem plan_entries_capped_witness :
    ((⟨⟨0, 3, true⟩, 0, 3⟩ : ClipPlanEntry).trim_start = 0 ∧
      (⟨⟨0, 3, true⟩, 0, 3⟩ : ClipPlanEntry).trim_end
        = min 5 (⟨0, 3, true⟩ : ClipDescriptor).duration) ∧
    (⟨⟨0, 3, true⟩, 0, 3⟩ : ClipPlanEntry).trim_end
        - (⟨⟨0, 3, true⟩, 0, 3⟩ : ClipPlanEntry).trim_start ≤ 5 :=
  ⟨plan_entries_capped.1 ⟨0, 3, true⟩ ⟨⟨0, 3, true⟩, 0, 3⟩
      (by norm_num [process_video_clip, ClipPlanEntry.mk.injEq]),
    plan_entries_capped.2 [⟨0, 3, true⟩] 10 ⟨[⟨⟨0, 3, true⟩, 0, 3⟩], 3⟩
      (by norm_num [create_video_sequence, sequenceLoop, process_video_clip, entryDur,
        entriesDuration, truncateEntries, SequencePlan.mk.injEq, ClipPlanEntry.mk.injEq])
      ⟨⟨0, 3, true⟩, 0, 3⟩ (List.mem_singleton_self _)⟩

/-- C9: an unreadable descriptor anywhere in the pool is skipped without
aborting the build: the result is identical to building from the same pool
with that descriptor removed entirely, total duration included. -/
theorem unreadable_skipped (pre post : List ClipDescriptor) (bad : ClipDescriptor)
    (target : ℚ) (hbad : bad.readable = false) :
    create_video_sequence (pre ++ bad :: post) target
      = create_video_sequence (pre ++ post) target ∧
    ∀ plan plan',
      create_video_sequence (pre ++ bad :: post) target = Except.ok plan →
      create_video_sequence (pre ++ post) target = Except.ok plan' →
      plan.total_duration = plan'.total_duration := by
  have h := sequenceLoop_skip target bad hbad pre post [] 0
  have hcvs : create_video_sequence (pre ++ bad :: post) target
      = create_video_sequence (pre ++ post) target := by
    unfold create_video_sequence
    rw [h]
  refine ⟨hcvs, ?_⟩
  intro plan plan' hp1 hp2
  rw [hcvs, hp2] at hp1
  injection hp1 with hp
  rw [hp]

/-- Witness for the skip theorem: dropping an unreadable middle descriptor
leaves the build unchanged. -/
theorem unreadable_skipped_witness :
    (⟨1, 4, false⟩ : ClipDescriptor).readable = false ∧
    create_video_sequence [⟨0, 3, true⟩, ⟨1, 4, false⟩, ⟨2, 6, true⟩] 7
      = create_video_sequence [⟨0, 3, true⟩, ⟨2, 6, true⟩] 7 :=
  ⟨rfl, (unreadable_skipped [⟨0, 3, true⟩] [⟨2, 6, true⟩] ⟨1, 4, false⟩ 7 rfl).1⟩

/-! ## Claim theorems: crop geometry -/

/-- The geometric contract of the vertical crop on a `w × h` source: the
rectangle has exactly the target dimensions (so its width:height equals
the target ratio exactly), lies inside the uniformly scaled frame, the
margins removed on each axis differ by at most one pixel, and the scaled
size matches the branch the source's aspect selects — height matched and
width center-cropped when the source is relatively wider, width matched
and height center-cropped otherwise. -/
def goodCrop (w h : ℕ) (r : ResizeResult) : Prop :=
  (r.crop.x2 - r.crop.x1 = VERTICAL_WIDTH ∧ r.crop.y2 - r.crop.y1 = VERTICAL_HEIGHT) ∧
  VERTICAL_HEIGHT * (r.crop.x2 - r.crop.x1) = VERTICAL_WIDTH * (r.crop.y2 - r.crop.y1) ∧
  (0 ≤ r.crop.x1 ∧ r.crop.x2 ≤ r.new_width ∧ 0 ≤ r.crop.y1 ∧ r.crop.y2 ≤ r.new_height) ∧
  (|r.crop.x1 - (r.new_width - r.crop.x2)| ≤ 1 ∧
    |r.crop.y1 - (r.new_height - r.crop.y2)| ≤ 1) ∧
  ((w : ℚ) / h > (VERTICAL_WIDTH : ℚ) / VERTICAL_HEIGHT →
    r.new_height = VERTICAL_HEIGHT ∧ r.new_width = ⌊(VERTICAL_HEIGHT : ℚ) * ((w : ℚ) / h)⌋) ∧
  ((w : ℚ) / h ≤ (VERTICAL_WIDTH : ℚ) / VERTICAL_HEIGHT →
    r.new_width = VERTICAL_WIDTH ∧ r.new_height = ⌊(VERTICAL_WIDTH : ℚ) / ((w : ℚ) / h)⌋)

/-- C8: the crop computed by `resize_clip_vertical` satisfies the
geometric contract on every positive source frame. -/
theorem resize_clip_vertical_correct (w h : ℕ) (hw : 0 < w) (hh : 0 < h) :
    goodCrop w h (resize_clip_vertical w h) := by
  have hwq : (0 : ℚ) < (w : ℚ) := by exact_mod_cast hw
  have hhq : (0 : ℚ) < (h : ℚ) := by exact_mod_cast hh
  by_cases hc : (w : ℚ) / h > (VERTICAL_WIDTH : ℚ) / VERTICAL_HEIGHT
  · have hres : resize_clip_vertical w h
        = { new_width := ⌊(VERTICAL_HEIGHT : ℚ) * ((w : ℚ) / h)⌋,
            new_height := VERTICAL_HEIGHT,
            crop := { x1 := ⌊(VERTICAL_HEIGHT : ℚ) * ((w : ℚ) / h)⌋ / 2 - VERTICAL_WIDTH / 2,
                      y1 := 0,
                      x2 := ⌊(VERTICAL_HEIGHT : ℚ) * ((w : ℚ) / h)⌋ / 2 - VERTICAL_WIDTH / 2
                        + VERTICAL_WIDTH,
                      y2 := VERTICAL_HEIGHT } } := by
      unfold resize_clip_vertical
      rw [if_pos hc]
    have hcq : (9 : ℚ) / 16 < (w : ℚ) / h := by
      have hx := hc
      norm_num [VERTICAL_WIDTH, VERTICAL_HEIGHT] at hx
      exact hx
    have hmul : (1080 : ℚ) < 1920 * ((w : ℚ) / h) := by
      have h1 := (div_lt_div_iff₀ (by norm_num : (0 : ℚ) < 16) hhq).mp hcq
      rw [mul_div_assoc', lt_div_iff₀ hhq]
      linarith
    have hN : (1080 : ℤ) ≤ ⌊(VERTICAL_HEIGHT : ℚ) * ((w : ℚ) / h)⌋ := by
      apply Int.le_floor.mpr
      push_cast
      norm_num [VERTICAL_HEIGHT]
      linarith
    rw [hres]
    unfold goodCrop
    simp only [VERTICAL_WIDTH, VERTICAL_HEIGHT] at hN ⊢
    refine ⟨⟨by omega, by omega⟩, by omega, ⟨by omega, by omega, by omega, by omega⟩,
      ⟨by rw [abs_le]; omega, by rw [abs_le]; omega⟩, ?_, ?_⟩
    · intro _
      norm_num
    · intro hle
      exfalso
      norm_num at hle
      linarith
  · have hle : (w : ℚ) / h ≤ (VERTICAL_WIDTH : ℚ) / VERTICAL_HEIGHT := not_lt.mp hc
    have hres : resize_clip_vertical w h
        = { new_width := VERTICAL_WIDTH,
            new_height := ⌊(VERTICAL_WIDTH : ℚ) / ((w : ℚ) / h)⌋,
            crop := { x1 := 0,
                      y1 := ⌊(VERTICAL_WIDTH : ℚ) / ((w : ℚ) / h)⌋ / 2 - VERTICAL_HEIGHT / 2,
                      x2 := VERTICAL_WIDTH,
                      y2 := ⌊(VERTICAL_WIDTH : ℚ) / ((w : ℚ) / h)⌋ / 2 - VERTICAL_HEIGHT / 2
                        + VERTICAL_HEIGHT } } := by
      unfold resize_clip_vertical
      rw [if_neg hc]
    have hleq : (w : ℚ) / h ≤ (9 : ℚ) / 16 := by
      have hx := hle
      norm_num [VERTICAL_WIDTH, VERTICAL_HEIGHT] at hx
      exact hx
    have hdivpos : (0 : ℚ) < (w : ℚ) / h := div_pos hwq hhq
    have hM : (1920 : ℤ) ≤ ⌊(VERTICAL_WIDTH : ℚ) / ((w : ℚ) / h)⌋ := by
      apply Int.le_floor.mpr
      push_cast
      norm_num [VERTICAL_WIDTH]
      rw [le_div_iff₀ hdivpos]
      have h1 := (div_le_div_iff₀ hhq (by norm_num : (0 : ℚ) < 16)).mp hleq
      rw [mul_div_assoc', div_le_iff₀ hhq]
      linarith
    rw [hres]
    unfold goodCrop
    simp only [VERTICAL_WIDTH, VERTICAL_HEIGHT] at hM ⊢
    refine ⟨⟨by omega, by omega⟩, by omega, ⟨by omega, by omega, by omega, by omega⟩,
      ⟨by rw [abs_le]; omega, by rw [abs_le]; omega⟩, ?_, ?_⟩
    · intro hgt
      exfalso
      norm_num at hgt
      linarith
    · intro _
      norm_num

/-- Witness for the crop theorem at the spec's 4:3 example frame. -/
theorem resize_clip_vertical_correct_witness :
    0 < 4 ∧ 0 < 3 ∧ goodCrop 4 3 (resize_clip_vertical 4 3) :=
  ⟨by norm_num, by norm_num, resize_clip_vertical_correct 4 3 (by norm_num) (by norm_num)⟩
